import Mathlib

/-!
Verification of `haollama-proxy` (src/haollama-proxy.py), a Flask-based
reverse proxy for an Ollama backend.

Shallow embedding conventions:
* Byte/text data is `List Char`.
* JSON values are the inductive `Json` below; `json.loads` / `json.dumps`
  are library collaborators and appear as explicit `decode` / `encode`
  parameters of the stream pipeline.
* The regex `re.sub(r'<think>\s*</think>', '', text, re.IGNORECASE | re.DOTALL)`
  is embedded directly: the pattern is two case-insensitive literals around a
  greedy whitespace run.  Since `</think>` begins with `<`, which is not
  whitespace, the greedy `\s*` deterministically consumes the maximal
  whitespace run and no backtracking can succeed, so the scanner below
  (leftmost match, resume after the match, single pass) is exact.
* Python raising-and-catching (the `except` arms of `ndjson_stream`, and
  `TypeError` from `in` / indexing / `re.sub` on ill-shaped data) is `Option`:
  `none` is a raised exception, which the pipeline turns into a dropped line.
* HTTP handlers are pure functions; the outbound `requests` call is a
  function parameter, and handlers that perform a call also return the list
  of outbound requests they issued, so "exactly one outbound call" is
  expressible.
-/

namespace Haollama

/-! ## Characters: case folding and Python `\s` -/

/-- Case folding as `re.IGNORECASE` (without `re.ASCII`) applies to this
fixed pattern: a subject character matches a lowercase pattern letter when
CPython's caseless literal matching relates them.  Exhaustively over all
codepoints, CPython matches pattern `t` by {T, t}, `h` by {H, h}, `i` by
{I, i, U+0130, U+0131}, `n` by {N, n}, `k` by {K, k, U+212A KELVIN SIGN},
and `<`, `/`, `>` only by themselves, so this fold is exact for the
pattern's alphabet. -/
def lcTag (c : Char) : Char :=
  if c = 'T' then 't'
  else if c = 'H' then 'h'
  else if c = 'I' ∨ c = '\u0130' ∨ c = '\u0131' then 'i'
  else if c = 'N' then 'n'
  else if c = 'K' ∨ c = '\u212A' then 'k'
  else c

/-- Python's `\s` for `str` patterns: ASCII whitespace, the C1 separators,
NEL, NBSP and the Unicode `White_Space` characters. -/
def isPySpace (c : Char) : Bool :=
  c = ' ' || c = '\t' || c = '\n' || c = '\r' || c = '\x0b' || c = '\x0c' ||
  c = '\x1c' || c = '\x1d' || c = '\x1e' || c = '\x1f' || c = '\u0085' ||
  c = '\u00a0' || c = '\u1680' || ('\u2000' ≤ c && c ≤ '\u200a') ||
  c = '\u2028' || c = '\u2029' || c = '\u202f' || c = '\u205f' || c = '\u3000'

/-- The opening literal of the pattern, lowercase. -/
def openTagChars : List Char := ['<', 't', 'h', 'i', 'n', 'k', '>']

/-- The closing literal of the pattern, lowercase. -/
def closeTagChars : List Char := ['<', '/', 't', 'h', 'i', 'n', 'k', '>']

/-! ## The regex scanner for `<think>\s*</think>` -/

/-- Match a lowercase literal `pat` case-insensitively at the head of `s`,
returning the number of consumed characters. -/
def matchLitCI : List Char → List Char → Option Nat
  | [], _ => some 0
  | _ :: _, [] => none
  | p :: ps, c :: cs =>
    if lcTag c = p then (matchLitCI ps cs).map (· + 1) else none

/-- Length of the maximal leading whitespace run (the greedy `\s*`). -/
def spanSpaces : List Char → Nat
  | [] => 0
  | c :: s => if isPySpace c then spanSpaces s + 1 else 0

/-- Attempt the whole pattern `<think>\s*</think>` at the head of `s`,
returning the length of the match. -/
def matchEmptyThink (s : List Char) : Option Nat :=
  match matchLitCI openTagChars s with
  | none => none
  | some n1 =>
    match matchLitCI closeTagChars (s.drop (n1 + spanSpaces (s.drop n1))) with
    | none => none
    | some n2 => some (n1 + spanSpaces (s.drop n1) + n2)

/-- One left-to-right `re.sub` pass with replacement `''`: on a match, drop
the matched characters and resume after them; otherwise keep one character
and move on.  Fuel-indexed for structural recursion; any fuel above the
input length is enough because every step consumes at least one character. -/
def removeAux : Nat → List Char → List Char
  | 0, s => s
  | _ + 1, [] => []
  | fuel + 1, c :: s =>
    match matchEmptyThink (c :: s) with
    | some n => removeAux fuel (s.drop (n - 1))
    | none => c :: removeAux fuel s

/-- `remove_empty_think_tags` of the source: delete every occurrence of
`<think>\s*</think>` (case-insensitive, `\s` spans newlines). -/
def remove_empty_think_tags (s : List Char) : List Char :=
  removeAux (s.length + 1) s

/-! ## JSON values and the Python-dict operations the handlers use -/

/-- A parsed JSON value, as produced by `json.loads`.  Objects are ordered
key/value lists; `json.loads` yields each key at most once. -/
inductive Json where
  | null
  | bool (b : Bool)
  | num (n : Int)
  | str (s : List Char)
  | arr (elems : List Json)
  | obj (fields : List (List Char × Json))

/-- Python dict lookup `d[k]` (object keys occur at most once; first match). -/
def lookupKey {α : Type} : List (List Char × α) → List Char → Option α
  | [], _ => none
  | (k', v) :: rest, k => if k' = k then some v else lookupKey rest k

/-- Python dict assignment `d[k] = v`: replace the value in place when the
key is present, append otherwise. -/
def dictInsert {α : Type} : List (List Char × α) → List Char → α → List (List Char × α)
  | [], k, v => [(k, v)]
  | (k', v') :: rest, k, v =>
    if k' = k then (k', v) :: rest else (k', v') :: dictInsert rest k v

/-- Python substring test `sub in s` for strings. -/
def containsSub : List Char → List Char → Bool
  | [], sub => sub.isEmpty
  | c :: t, sub => List.isPrefixOf sub (c :: t) || containsSub t sub

/-- Python `needle in xs` for a list: some element equals the string. -/
def listHasStr (xs : List Json) (needle : List Char) : Bool :=
  xs.any fun j =>
    match j with
    | Json.str s => s = needle
    | _ => false

/-- Python's `needle in container` on a JSON value: key test on a dict,
substring test on a string, membership on a list; `TypeError` (modelled as
`none`) on any other value. -/
def pyIn (needle : List Char) (container : Json) : Option Bool :=
  match container with
  | Json.obj kvs => some (lookupKey kvs needle).isSome
  | Json.str s => some (containsSub s needle)
  | Json.arr xs => some (listHasStr xs needle)
  | _ => none

def msgKey : List Char := "message".toList

def contentKey : List Char := "content".toList

/-- Lines 127–128 of the source, run inside the `try` of `ndjson_stream`:
`if "message" in data and "content" in data["message"]:` then
`data["message"]["content"] = remove_empty_think_tags(data["message"]["content"])`.
`none` is a raised exception (`TypeError` from `in`, string indexing, or
`re.sub` on a non-string), which the caller's `except` turns into a dropped
line. -/
def processRecord (data : Json) : Option Json :=
  match pyIn msgKey data with
  | none => none
  | some false => some data
  | some true =>
    match data with
    | Json.obj kvs =>
      match lookupKey kvs msgKey with
      | none => none
      | some v =>
        match pyIn contentKey v with
        | none => none
        | some false => some data
        | some true =>
          match v with
          | Json.obj mkvs =>
            match lookupKey mkvs contentKey with
            | some (Json.str s) =>
              some (Json.obj (dictInsert kvs msgKey
                (Json.obj (dictInsert mkvs contentKey
                  (Json.str (remove_empty_think_tags s))))))
            | _ => none
          | _ => none
    | _ => none

/-! ## The NDJSON stream pipeline (`ndjson_stream`, lines 116–139) -/

/-- The bytes emitted for one transport line: nothing for an empty line,
nothing when `json.loads` fails or processing raises, otherwise the
re-serialized record followed by a newline. -/
def processLineOut (decode : List Char → Option Json) (encode : Json → List Char)
    (line : List Char) : List (List Char) :=
  if line.isEmpty then []
  else
    match decode line with
    | none => []
    | some d =>
      match processRecord d with
      | none => []
      | some d2 => [encode d2 ++ ['\n']]

/-- The whole generator: the concatenation of the per-line outputs, in input
order. -/
def ndjson_stream (decode : List Char → Option Json) (encode : Json → List Char)
    (lines : List (List Char)) : List (List Char) :=
  (lines.map (processLineOut decode encode)).flatten

/-! ## HTTP data model and the request/response header filters -/

inductive HMethod where
  | GET | POST | PUT | DELETE | PATCH | OPTIONS
deriving DecidableEq

/-- An inbound request, as the Flask layer presents it to the handlers.
Headers are an ordered list of name/value pairs (names may repeat). -/
structure InRequest where
  method : HMethod
  path : List Char
  headers : List (List Char × List Char)
  body : List Char
  cookies : List (List Char × List Char)
  queryParams : List (List Char × List Char)

/-- One outbound `requests` call, with everything the source passes to it. -/
structure OutboundRequest where
  method : HMethod
  url : List Char
  headers : List (List Char × List Char)
  body : List Char
  cookies : List (List Char × List Char)
  queryParams : List (List Char × List Char)
  allowRedirects : Bool
  streamMode : Bool

/-- A buffered backend response (`resp.content` / `resp.status_code` /
`resp.raw.headers.items()`). -/
structure BackendResponse where
  status : Nat
  headers : List (List Char × List Char)
  body : List Char

/-- A streamed backend response; `lines` is what `resp.iter_lines()` yields. -/
structure StreamBackendResponse where
  status : Nat
  headers : List (List Char × List Char)
  lines : List (List Char)

/-- What the proxy returns to its own caller. -/
structure ClientResponse where
  status : Nat
  headers : List (List Char × List Char)
  body : List Char

/-- `str.lower` on the ASCII letters, as applied to header names. -/
def asciiLower (c : Char) : Char :=
  if 'A' ≤ c ∧ c ≤ 'Z' then Char.ofNat (c.toNat + 32) else c

def lowerStr (s : List Char) : List Char := s.map asciiLower

def hostChars : List Char := "host".toList

/-- Lines 106 and 166:
`{key: value for key, value in request.headers if key.lower() != 'host'}` —
a dict comprehension, so a repeated key keeps its first position but is
overwritten by the later value. -/
def filterRequestHeaders (hs : List (List Char × List Char)) :
    List (List Char × List Char) :=
  hs.foldl
    (fun d kv => if lowerStr kv.1 = hostChars then d else dictInsert d kv.1 kv.2)
    []

def excludedHeaders : List (List Char) :=
  ["content-encoding".toList, "content-length".toList,
   "transfer-encoding".toList, "connection".toList]

/-- Lines 176–177: the response-side list comprehension keeps every pair
whose lowercased name is not excluded, in order. -/
def filterResponseHeaders (hs : List (List Char × List Char)) :
    List (List Char × List Char) :=
  hs.filter fun kv => !(excludedHeaders.contains (lowerStr kv.1))

/-! ## Request router and the handlers -/

inductive HandlerChoice where
  | generate | chat | forward
deriving DecidableEq

def generatePathChars : List Char := "api/generate".toList

def chatPathChars : List Char := "api/chat".toList

/-- The effective dispatch: Flask routes `POST /api/chat` to `proxy_chat`;
every other method/path reaches `proxy_all`, whose lines 159–162 check
`api/generate` then `api/chat` before falling through to the generic
forwarder.  The conditions are mutually exclusive, so this single ordered
test captures both layers. -/
def routeRequest (path : List Char) (method : HMethod) : HandlerChoice :=
  if path = generatePathChars ∧ method = HMethod.POST then HandlerChoice.generate
  else if path = chatPathChars ∧ method = HMethod.POST then HandlerChoice.chat
  else HandlerChoice.forward

/-- Lines 165–175: the single outbound `requests.request` call built by the
generic forwarder: URL `f"{OLLAMA_URL}/{path}"`, filtered headers, raw body,
cookies, `params=request.args`, `allow_redirects=False`. -/
def buildForwardRequest (baseUrl : List Char) (req : InRequest) : OutboundRequest :=
  { method := req.method
    url := baseUrl ++ '/' :: req.path
    headers := filterRequestHeaders req.headers
    body := req.body
    cookies := req.cookies
    queryParams := req.queryParams
    allowRedirects := false
    streamMode := false }

/-- The generic-forwarder tail of `proxy_all` (lines 164–178): one backend
call, then `Response(resp.content, resp.status_code, filtered_headers)`.
The second component is the trace of outbound calls made. -/
def forwardOther (baseUrl : List Char) (backend : OutboundRequest → BackendResponse)
    (req : InRequest) : ClientResponse × List OutboundRequest :=
  let out := buildForwardRequest baseUrl req
  let resp := backend out
  ({ status := resp.status
     headers := filterResponseHeaders resp.headers
     body := resp.body },
   [out])

def ndjsonMime : List Char := "application/x-ndjson; charset=utf-8".toList

def contentTypeChars : List Char := "Content-Type".toList

/-- `proxy_chat` (lines 92–141): forward the request to `{OLLAMA_URL}/api/chat`
with filtered headers and `stream=True`, then return a Flask `Response` whose
body is the `ndjson_stream` generator output, whose mimetype is
`application/x-ndjson; charset=utf-8`, and whose status is Flask's default
200.  Nothing of the backend's status or headers is copied. -/
def proxy_chat (decode : List Char → Option Json) (encode : Json → List Char)
    (backend : OutboundRequest → StreamBackendResponse) (baseUrl : List Char)
    (req : InRequest) : ClientResponse × List OutboundRequest :=
  let out : OutboundRequest :=
    { method := HMethod.POST
      url := baseUrl ++ "/api/chat".toList
      headers := filterRequestHeaders req.headers
      body := req.body
      cookies := req.cookies
      queryParams := req.queryParams
      allowRedirects := false
      streamMode := true }
  let resp := backend out
  ({ status := 200
     headers := [(contentTypeChars, ndjsonMime)]
     body := (ndjson_stream decode encode resp.lines).flatten },
   [out])

def streamKey : List Char := "stream".toList

/-- Modelled from the spec: `proxy_generate` is invoked at line 160 of
src/haollama-proxy.py but is not defined under src/.  Spec §4.4 requires the
generate handler to parse the JSON request body, set or override a boolean
`stream` field to force non-streamed backend behavior, and forward the
mutated body to the backend.  The result is the body it forwards (`none`
when the body is not a JSON object). -/
def proxy_generate (decode : List Char → Option Json) (req : InRequest) :
    Option Json :=
  match decode req.body with
  | some (Json.obj kvs) =>
    some (Json.obj (dictInsert kvs streamKey (Json.bool false)))
  | _ => none

/-! ## Specification-side predicates about think-tag spans -/

/-- A whitespace-only think-tag span: an opening tag (any letter casing),
whitespace and newlines only, a closing tag (any letter casing). -/
def EmptySpan (t : List Char) : Prop :=
  ∃ o w c, t = o ++ w ++ c ∧ o.map lcTag = openTagChars ∧
    w.all isPySpace = true ∧ c.map lcTag = closeTagChars

/-- The string contains a whitespace-only think-tag span somewhere. -/
def HasEmptySpan (s : List Char) : Prop :=
  ∃ a t b, s = a ++ t ++ b ∧ EmptySpan t

/-- Executable companion of `HasEmptySpan`: try the pattern at every
position. -/
def hasEmptySpanScan : List Char → Bool
  | [] => false
  | c :: s => (matchEmptyThink (c :: s)).isSome || hasEmptySpanScan s

/-- Alternating concatenation `c0 ++ t1 ++ c1 ++ t2 ++ c2 ++ ...`: a string
presented as span-free stretches separated by think-tag spans. -/
def concatSpans (c0 : List Char) : List (List Char × List Char) → List Char
  | [] => c0
  | (t, c) :: rest => c0 ++ t ++ concatSpans c rest

/-- The `message.content` string of a record, when that path resolves. -/
def contentOf (j : Json) : Option (List Char) :=
  match j with
  | Json.obj kvs =>
    match lookupKey kvs msgKey with
    | some (Json.obj mkvs) =>
      match lookupKey mkvs contentKey with
      | some (Json.str s) => some s
      | _ => none
    | _ => none
  | _ => none

/-- The shapes on which the field-path miss is benign: the Python membership
tests run without raising and report the field absent, so the record passes
through unchanged. -/
def benignMiss (r : Json) : Prop :=
  pyIn msgKey r = some false ∨
  ∃ kvs v, r = Json.obj kvs ∧ lookupKey kvs msgKey = some v ∧
    pyIn contentKey v = some false

/-! ## Lemmas: the literal matcher and the whitespace span -/

theorem lcTag_eq_angle {x : Char} (h : lcTag x = '<') : x = '<' := by
  unfold lcTag at h
  split_ifs at h <;> first | exact absurd h (by decide) | exact h

theorem map_lcTag_length {x pat : List Char} (h : x.map lcTag = pat) :
    x.length = pat.length := by
  rw [← List.length_map x lcTag, h]

theorem matchLitCI_some : ∀ (pat s : List Char) (n : Nat),
    matchLitCI pat s = some n →
    n = pat.length ∧ ∃ x r, s = x ++ r ∧ x.map lcTag = pat := by
  intro pat
  induction pat with
  | nil =>
    intro s n h
    simp only [matchLitCI, Option.some.injEq] at h
    exact ⟨h.symm, [], s, rfl, rfl⟩
  | cons p ps ih =>
    intro s n h
    match s with
    | [] => simp [matchLitCI] at h
    | c :: cs =>
      simp only [matchLitCI] at h
      by_cases hc : lcTag c = p
      · rw [if_pos hc] at h
        match hm : matchLitCI ps cs with
        | none => rw [hm] at h; simp at h
        | some m =>
          rw [hm] at h
          simp only [Option.map_some', Option.some.injEq] at h
          obtain ⟨hlen, x, r, hs, hx⟩ := ih cs m hm
          refine ⟨by simp [← h, hlen], c :: x, r, by simp [hs], by simp [hx, hc]⟩
      · rw [if_neg hc] at h; simp at h

theorem matchLitCI_complete : ∀ (x pat r : List Char), x.map lcTag = pat →
    matchLitCI pat (x ++ r) = some pat.length := by
  intro x
  induction x with
  | nil =>
    intro pat r h
    simp only [List.map_nil] at h
    subst h
    rfl
  | cons c x' ih =>
    intro pat r h
    subst h
    simp [matchLitCI, ih (x'.map lcTag) r rfl]

theorem spanSpaces_decomp : ∀ s : List Char,
    ∃ w r, s = w ++ r ∧ w.all isPySpace = true ∧ spanSpaces s = w.length ∧
      ∀ c r2, r = c :: r2 → isPySpace c = false := by
  intro s
  induction s with
  | nil => exact ⟨[], [], rfl, rfl, rfl, by intro c r2 h; cases h⟩
  | cons c s' ih =>
    by_cases hc : isPySpace c
    · obtain ⟨w, r, hs, hall, hlen, hmax⟩ := ih
      refine ⟨c :: w, r, by simp [hs], by simp [hall, hc], ?_, hmax⟩
      simp [spanSpaces, hc, hlen]
    · refine ⟨[], c :: s', rfl, rfl, ?_, ?_⟩
      · simp [spanSpaces, hc]
      · intro c2 r2 h
        cases h
        simpa using hc

theorem spanSpaces_complete : ∀ (w : List Char) (c : Char) (r : List Char),
    w.all isPySpace = true → isPySpace c = false →
    spanSpaces (w ++ c :: r) = w.length := by
  intro w
  induction w with
  | nil => intro c r _ hc; simp [spanSpaces, hc]
  | cons x w' ih =>
    intro c r hall hc
    simp only [List.all_cons, Bool.and_eq_true] at hall
    simp [spanSpaces, hall.1, ih c r hall.2 hc]

/-! ## Lemmas: the full pattern matcher -/

theorem matchEmptyThink_some {s : List Char} {n : Nat}
    (h : matchEmptyThink s = some n) :
    ∃ o w cl r, s = o ++ (w ++ (cl ++ r)) ∧ o.map lcTag = openTagChars ∧
      w.all isPySpace = true ∧ cl.map lcTag = closeTagChars ∧
      n = o.length + w.length + cl.length := by
  unfold matchEmptyThink at h
  split at h
  · cases h
  next n1 h1 =>
    obtain ⟨hn1, o, r1, hs, ho⟩ := matchLitCI_some _ _ _ h1
    have hol : o.length = 7 := map_lcTag_length ho
    have hdrop1 : s.drop n1 = r1 := by
      rw [hs, hn1, show openTagChars.length = 7 from rfl, ← hol, List.drop_left]
    rw [hdrop1] at h
    obtain ⟨w, r2, hr1, hwall, hk, _⟩ := spanSpaces_decomp r1
    split at h
    · cases h
    next n2 h2 =>
      rw [hk] at h2
      injection h with hn
      obtain ⟨hn2, cl, r, hr2, hcl⟩ := matchLitCI_some _ _ _ h2
      have hdrop2 : s.drop (n1 + w.length) = r2 := by
        rw [hs, hr1, hn1, show openTagChars.length = 7 from rfl, ← hol]
        rw [show o ++ (w ++ r2) = (o ++ w) ++ r2 by simp,
          show o.length + w.length = (o ++ w).length by simp, List.drop_left]
      rw [hdrop2] at hr2
      have hcll : cl.length = 8 := map_lcTag_length hcl
      refine ⟨o, w, cl, r, ?_, ho, hwall, hcl, ?_⟩
      · rw [hs, hr1, hr2]
      · rw [← hn, hn1, hn2, hk, hol, hcll]
        simp [openTagChars, closeTagChars]

theorem matchEmptyThink_complete {o w cl : List Char} (r : List Char)
    (ho : o.map lcTag = openTagChars) (hw : w.all isPySpace = true)
    (hcl : cl.map lcTag = closeTagChars) :
    matchEmptyThink (o ++ (w ++ (cl ++ r))) = some (o.length + w.length + cl.length) := by
  have hol : o.length = 7 := map_lcTag_length ho
  have hcll : cl.length = 8 := map_lcTag_length hcl
  obtain ⟨c0, cl', hcl0⟩ : ∃ c0 cl', cl = c0 :: cl' := by
    cases cl with
    | nil => cases hcl
    | cons a b => exact ⟨a, b, rfl⟩
  have hc0 : c0 = '<' := by
    apply lcTag_eq_angle
    rw [hcl0] at hcl
    simpa [closeTagChars] using congrArg (fun l => l.headD 'x') hcl
  have h1 : matchLitCI openTagChars (o ++ (w ++ (cl ++ r))) = some 7 :=
    matchLitCI_complete o openTagChars (w ++ (cl ++ r)) ho
  have hd1 : (o ++ (w ++ (cl ++ r))).drop 7 = w ++ (cl ++ r) := by
    rw [← hol, List.drop_left]
  have hsp : spanSpaces (w ++ (cl ++ r)) = w.length := by
    rw [hcl0, hc0, List.cons_append]
    exact spanSpaces_complete w '<' (cl' ++ r) hw (by decide)
  have hd2 : (o ++ (w ++ (cl ++ r))).drop (7 + w.length) = cl ++ r := by
    rw [show o ++ (w ++ (cl ++ r)) = (o ++ w) ++ (cl ++ r) by simp,
      show (7 : Nat) + w.length = (o ++ w).length by simp [hol], List.drop_left]
  have h2 : matchLitCI closeTagChars (cl ++ r) = some 8 :=
    matchLitCI_complete cl closeTagChars r hcl
  simp only [matchEmptyThink, h1, hd1, hsp, hd2, h2, hol, hcll,
    show openTagChars.length = 7 from rfl, show closeTagChars.length = 8 from rfl]

/-! ## Lemmas: spans and the impossibility of straddling matches -/

theorem getD_append_left {l₁ l₂ : List Char} {i : Nat} (d : Char) (h : i < l₁.length) :
    (l₁ ++ l₂).getD i d = l₁.getD i d := by
  simp [List.getD_eq_getElem?_getD, List.getElem?_append_left h]

theorem getD_append_right {l₁ l₂ : List Char} {i : Nat} (d : Char) (h : l₁.length ≤ i) :
    (l₁ ++ l₂).getD i d = l₂.getD (i - l₁.length) d := by
  simp [List.getD_eq_getElem?_getD, List.getElem?_append_right h]

theorem map_lcTag_getD {x pat : List Char} (h : x.map lcTag = pat) {i : Nat}
    (hi : i < x.length) : lcTag (x.getD i 'x') = pat.getD i 'x' := by
  rw [List.getD_eq_getElem x 'x' hi,
    List.getD_eq_getElem pat 'x' (by rw [← map_lcTag_length h]; exact hi)]
  have h2 := List.getElem_of_eq h (show i < (x.map lcTag).length by simpa using hi)
  rw [List.getElem_map] at h2
  exact h2

theorem all_isPySpace_getD {w : List Char} (hw : w.all isPySpace = true) {i : Nat}
    (hi : i < w.length) : isPySpace (w.getD i 'x') = true := by
  rw [List.getD_eq_getElem w 'x' hi]
  exact List.all_eq_true.mp hw _ (List.getElem_mem hi)

theorem emptySpan_length {t : List Char} (h : EmptySpan t) :
    t.length = 15 + (t.length - 15) ∧ 15 ≤ t.length := by
  obtain ⟨o, w, cl, ht, ho, hw, hcl⟩ := h
  have hol : o.length = 7 := map_lcTag_length ho
  have hcll : cl.length = 8 := map_lcTag_length hcl
  subst ht
  simp only [List.length_append, hol, hcll]
  omega

theorem emptySpan_match {t : List Char} (r : List Char) (h : EmptySpan t) :
    matchEmptyThink (t ++ r) = some t.length := by
  obtain ⟨o, w, cl, ht, ho, hw, hcl⟩ := h
  subst ht
  have h2 := matchEmptyThink_complete r ho hw hcl
  rw [show (o ++ w ++ cl) ++ r = o ++ (w ++ (cl ++ r)) from by simp, h2]
  simp
  omega

theorem matchEmptyThink_take {s : List Char} {n : Nat}
    (h : matchEmptyThink s = some n) :
    EmptySpan (s.take n) ∧ 1 ≤ n ∧ n ≤ s.length := by
  obtain ⟨o, w, cl, r, hs, ho, hw, hcl, hn⟩ := matchEmptyThink_some h
  have hol : o.length = 7 := map_lcTag_length ho
  have hcll : cl.length = 8 := map_lcTag_length hcl
  subst hs hn
  refine ⟨?_, by omega, by simp; omega⟩
  have htake : (o ++ (w ++ (cl ++ r))).take (o.length + w.length + cl.length)
      = o ++ w ++ cl := by
    rw [show o ++ (w ++ (cl ++ r)) = (o ++ w ++ cl) ++ r by simp,
      show o.length + w.length + cl.length = (o ++ w ++ cl).length by simp; omega, List.take_left]
  rw [htake]
  exact ⟨o, w, cl, rfl, ho, hw, hcl⟩

theorem hasEmptySpan_cons {c : Char} {s : List Char} (h : HasEmptySpan s) :
    HasEmptySpan (c :: s) := by
  obtain ⟨a, t, b, hs, ht⟩ := h
  exact ⟨c :: a, t, b, by simp [hs], ht⟩

theorem hasEmptySpan_of_match {s : List Char} {n : Nat}
    (h : matchEmptyThink s = some n) : HasEmptySpan s := by
  obtain ⟨hspan, _, _⟩ := matchEmptyThink_take h
  exact ⟨[], s.take n, s.drop n, by simp, hspan⟩

/-- The tail past the scan point: either nothing, or a full empty span
followed by anything. -/
def SpanOrNil (D : List Char) : Prop :=
  D = [] ∨ ∃ t D2, EmptySpan t ∧ D = t ++ D2

/-- A match attempted anywhere strictly inside `q` cannot straddle into a
tail that is empty or begins with a complete empty span: the span's opening
`<` can serve neither as a later pattern letter, nor as whitespace, nor as
any closing-tag character past its first, so the whole match must lie
inside `q`. -/
theorem noStraddle {q D : List Char} {n : Nat} (hq : q ≠ [])
    (hD : SpanOrNil D) (h : matchEmptyThink (q ++ D) = some n) :
    n ≤ q.length := by
  by_contra hcon
  push_neg at hcon
  obtain ⟨o, w, cl, r, hs, ho, hw, hcl, hn⟩ := matchEmptyThink_some h
  have hol : o.length = 7 := map_lcTag_length ho
  have hcll : cl.length = 8 := map_lcTag_length hcl
  have hlen : q.length + D.length = o.length + (w.length + (cl.length + r.length)) := by
    simpa using congrArg List.length hs
  have hq1 : 1 ≤ q.length := by
    cases q with
    | nil => exact absurd rfl hq
    | cons a b => simp
  rcases hD with rfl | ⟨t, D2, hspan, rfl⟩
  · simp at hlen
    omega
  · obtain ⟨o2, w2, cl2, ht, ho2, hw2, hcl2⟩ := hspan
    have ho2l : o2.length = 7 := map_lcTag_length ho2
    obtain ⟨c0, c1, o2r, ho2e⟩ : ∃ c0 c1 o2r, o2 = c0 :: c1 :: o2r := by
      match o2, ho2l with
      | a :: b :: rest, _ => exact ⟨a, b, rest, rfl⟩
    have hc0 : c0 = '<' := by
      apply lcTag_eq_angle
      rw [ho2e] at ho2
      simpa [openTagChars] using congrArg (fun l => l.headD 'x') ho2
    have hc1 : lcTag c1 = 't' := by
      rw [ho2e] at ho2
      simpa [openTagChars] using congrArg (fun l => (l.drop 1).headD 'x') ho2
    have e1 : (q ++ (t ++ D2)).getD q.length 'x' = c0 := by
      rw [getD_append_right 'x' (le_refl q.length), ht, ho2e]
      simp
    have e2 : (o ++ (w ++ (cl ++ r))).getD q.length 'x' = c0 := by
      rw [← hs]
      exact e1
    rcases lt_or_ge q.length 7 with hm7 | hm7
    · -- the match start would place the tail's `<` inside the opening literal
      have hmo : q.length < o.length := by omega
      rw [getD_append_left 'x' hmo] at e2
      have e4 := map_lcTag_getD ho hmo
      rw [e2, hc0] at e4
      have hj : openTagChars.getD q.length 'x' = '<' := by
        rw [← e4]
        decide
      set j := q.length with hjdef
      have hj7 : j < 7 := hm7
      clear_value j
      interval_cases j <;> revert hj <;> decide
    · rcases lt_or_ge q.length (7 + w.length) with hmw | hmw
      · -- the tail's `<` would have to be whitespace
        rw [getD_append_right 'x' (by omega),
          getD_append_left 'x' (show q.length - o.length < w.length by omega)] at e2
        have e6 := all_isPySpace_getD hw (show q.length - o.length < w.length by omega)
        rw [e2, hc0] at e6
        exact absurd e6 (by decide)
      · -- the tail's `<` would sit inside the closing literal
        have hmn : q.length < n := hcon
        have hicl : q.length - o.length - w.length < cl.length := by omega
        rw [getD_append_right 'x' (by omega),
          getD_append_right 'x' (show w.length ≤ q.length - o.length by omega),
          getD_append_left 'x' (by simpa using hicl)] at e2
        have e6 := map_lcTag_getD hcl hicl
        rw [show q.length - o.length - w.length = q.length - o.length - w.length from rfl,
          e2, hc0] at e6
        have hidx : q.length - o.length - w.length = 0 := by
          by_contra hnz
          have h1le : 1 ≤ q.length - o.length - w.length := Nat.one_le_iff_ne_zero.mpr hnz
          set j := q.length - o.length - w.length with hjdef
          have hj8 : j < 8 := by omega
          clear_value j
          revert e6
          interval_cases j <;> decide
        -- the closing literal would start exactly at the tail span; look one
        -- character further: the tail's second character
        have f1 : (q ++ (t ++ D2)).getD (q.length + 1) 'x' = c1 := by
          rw [getD_append_right 'x' (by omega), ht, ho2e]
          simp
        have f2 : (o ++ (w ++ (cl ++ r))).getD (q.length + 1) 'x' = c1 := by
          rw [← hs]
          exact f1
        have hicl1 : q.length + 1 - o.length - w.length < cl.length := by omega
        rw [getD_append_right 'x' (by omega),
          getD_append_right 'x' (show w.length ≤ q.length + 1 - o.length by omega),
          getD_append_left 'x' (by simpa using hicl1)] at f2
        have f6 := map_lcTag_getD hcl hicl1
        rw [f2, hc1] at f6
        have hone : q.length + 1 - o.length - w.length = 1 := by omega
        rw [hone] at f6
        revert f6
        decide

/-! ## Lemmas: the substitution pass -/

theorem removeAux_irrel : ∀ (f1 f2 : Nat) (s : List Char), s.length < f1 →
    s.length < f2 → removeAux f1 s = removeAux f2 s := by
  intro f1
  induction f1 with
  | zero => intro f2 s h1 h2; exact absurd h1 (by omega)
  | succ f ih =>
    intro f2 s h1 h2
    cases f2 with
    | zero => exact absurd h2 (by omega)
    | succ g =>
      cases s with
      | nil => rfl
      | cons c s2 =>
        simp only [removeAux]
        simp only [List.length_cons] at h1 h2
        cases hm : matchEmptyThink (c :: s2) with
        | some n =>
          apply ih
          · have hd : (s2.drop (n - 1)).length ≤ s2.length := by simp
            omega
          · have hd : (s2.drop (n - 1)).length ≤ s2.length := by simp
            omega
        | none =>
          exact congrArg (c :: ·) (ih g s2 (by omega) (by omega))

theorem remove_cons_match {c : Char} {s : List Char} {n : Nat}
    (h : matchEmptyThink (c :: s) = some n) :
    remove_empty_think_tags (c :: s) = remove_empty_think_tags (s.drop (n - 1)) := by
  unfold remove_empty_think_tags
  simp only [removeAux, List.length_cons, h]
  apply removeAux_irrel
  · have hd : (s.drop (n - 1)).length ≤ s.length := by simp
    omega
  · omega

theorem remove_cons_nomatch {c : Char} {s : List Char}
    (h : matchEmptyThink (c :: s) = none) :
    remove_empty_think_tags (c :: s) = c :: remove_empty_think_tags s := by
  unfold remove_empty_think_tags
  simp only [removeAux, List.length_cons, h]

/-- The heart of the string-level argument: scanning a span-free stretch
followed by a well-placed tail touches nothing in the stretch. -/
theorem remove_append_span : ∀ (c D : List Char), ¬HasEmptySpan c → SpanOrNil D →
    remove_empty_think_tags (c ++ D) = c ++ remove_empty_think_tags D := by
  intro c
  induction c with
  | nil => intro D _ _; simp
  | cons ch c2 ih =>
    intro D hno hD
    have hmatch : matchEmptyThink (ch :: (c2 ++ D)) = none := by
      cases hm : matchEmptyThink (ch :: (c2 ++ D)) with
      | none => rfl
      | some n =>
        exfalso
        have hle : n ≤ (ch :: c2).length :=
          noStraddle (by simp) hD (by simpa using hm)
        obtain ⟨hspan, h1, _⟩ := matchEmptyThink_take hm
        have htake : (ch :: (c2 ++ D)).take n = (ch :: c2).take n := by
          rw [show ch :: (c2 ++ D) = (ch :: c2) ++ D from rfl]
          exact List.take_append_of_le_length hle
        rw [htake] at hspan
        exact hno ⟨[], (ch :: c2).take n, (ch :: c2).drop n, by simp, hspan⟩
    rw [show (ch :: c2) ++ D = ch :: (c2 ++ D) from rfl, remove_cons_nomatch hmatch,
      ih D (fun hsp => hno (hasEmptySpan_cons hsp)) hD]
    rfl

theorem remove_eq_self_of_no_span {s : List Char} (h : ¬HasEmptySpan s) :
    remove_empty_think_tags s = s := by
  have h2 := remove_append_span s [] h (Or.inl rfl)
  rw [show remove_empty_think_tags [] = [] from rfl] at h2
  simpa using h2

theorem remove_span_head {t : List Char} (rest : List Char) (hspan : EmptySpan t) :
    remove_empty_think_tags (t ++ rest) = remove_empty_think_tags rest := by
  obtain ⟨th, tt, hte⟩ : ∃ th tt, t = th :: tt := by
    obtain ⟨-, h15⟩ := emptySpan_length hspan
    cases t with
    | nil => simp at h15
    | cons x y => exact ⟨x, y, rfl⟩
  have hm := emptySpan_match rest hspan
  rw [hte] at hm ⊢
  rw [show (th :: tt) ++ rest = th :: (tt ++ rest) from rfl] at hm ⊢
  rw [remove_cons_match hm]
  congr 1
  rw [show (th :: tt).length - 1 = tt.length by simp]
  exact List.drop_left tt rest

theorem remove_concatSpans : ∀ (parts : List (List Char × List Char)) (c0 : List Char),
    ¬HasEmptySpan c0 → (∀ p ∈ parts, EmptySpan p.1 ∧ ¬HasEmptySpan p.2) →
    remove_empty_think_tags (concatSpans c0 parts)
      = c0 ++ (parts.map Prod.snd).flatten := by
  intro parts
  induction parts with
  | nil =>
    intro c0 h _
    simpa using remove_eq_self_of_no_span h
  | cons p rest ih =>
    intro c0 h hp
    obtain ⟨t, c⟩ := p
    have hspan : EmptySpan t := (hp (t, c) (by simp)).1
    have hc : ¬HasEmptySpan c := (hp (t, c) (by simp)).2
    have hrest : ∀ q ∈ rest, EmptySpan q.1 ∧ ¬HasEmptySpan q.2 :=
      fun q hq => hp q (by simp [hq])
    show remove_empty_think_tags (c0 ++ t ++ concatSpans c rest) = _
    rw [show c0 ++ t ++ concatSpans c rest = c0 ++ (t ++ concatSpans c rest) by simp]
    rw [remove_append_span c0 (t ++ concatSpans c rest) h
      (Or.inr ⟨t, concatSpans c rest, hspan, rfl⟩)]
    rw [remove_span_head (concatSpans c rest) hspan, ih c hc hrest]
    simp

/-! ## Lemmas: the executable span scan -/

theorem scan_true_of_span : ∀ (a t b : List Char), EmptySpan t →
    hasEmptySpanScan (a ++ (t ++ b)) = true := by
  intro a t b ht
  induction a with
  | nil =>
    simp only [List.nil_append]
    obtain ⟨th, tt, hte⟩ : ∃ th tt, t = th :: tt := by
      obtain ⟨-, h15⟩ := emptySpan_length ht
      cases t with
      | nil => simp at h15
      | cons x y => exact ⟨x, y, rfl⟩
    have hm := emptySpan_match b ht
    rw [hte] at hm
    rw [show (th :: tt) ++ b = th :: (tt ++ b) from rfl] at hm
    rw [hte, show (th :: tt) ++ b = th :: (tt ++ b) from rfl]
    simp [hasEmptySpanScan, hm]
  | cons x a2 ih =>
    simp [hasEmptySpanScan, ih]

theorem not_hasEmptySpan_of_scan {s : List Char} (h : hasEmptySpanScan s = false) :
    ¬HasEmptySpan s := by
  intro hsp
  obtain ⟨a, t, b, hs, ht⟩ := hsp
  rw [hs, show a ++ t ++ b = a ++ (t ++ b) by simp, scan_true_of_span a t b ht] at h
  cases h

/-! ## Lemmas: dict operations and the record transform -/

theorem dictInsert_self {α : Type} : ∀ (d : List (List Char × α)) (k : List Char)
    (v : α), lookupKey d k = some v → dictInsert d k v = d := by
  intro d
  induction d with
  | nil => intro k v h; cases h
  | cons kv rest ih =>
    intro k v h
    obtain ⟨k2, v2⟩ := kv
    by_cases hk : k2 = k
    · simp only [lookupKey, if_pos hk, Option.some.injEq] at h
      simp [dictInsert, if_pos hk, h]
    · simp only [lookupKey, if_neg hk] at h
      simp [dictInsert, if_neg hk, ih k v h]

theorem lookupKey_dictInsert {α : Type} : ∀ (d : List (List Char × α)) (k : List Char)
    (v : α), lookupKey (dictInsert d k v) k = some v := by
  intro d
  induction d with
  | nil => intro k v; simp [dictInsert, lookupKey]
  | cons kv rest ih =>
    intro k v
    obtain ⟨k2, v2⟩ := kv
    by_cases hk : k2 = k
    · simp [dictInsert, if_pos hk, lookupKey, hk]
    · simp [dictInsert, if_neg hk, lookupKey, if_neg hk, ih]

theorem dictInsert_dictInsert {α : Type} : ∀ (d : List (List Char × α)) (k : List Char)
    (v v2 : α), dictInsert (dictInsert d k v) k v2 = dictInsert d k v2 := by
  intro d
  induction d with
  | nil => intro k v v2; simp [dictInsert]
  | cons kv rest ih =>
    intro k v v2
    obtain ⟨k3, v3⟩ := kv
    by_cases hk : k3 = k
    · simp [dictInsert, if_pos hk]
    · simp [dictInsert, if_neg hk, ih]

theorem processRecord_obj {kvs mkvs : List (List Char × Json)} {s : List Char}
    (hm : lookupKey kvs msgKey = some (Json.obj mkvs))
    (hc : lookupKey mkvs contentKey = some (Json.str s)) :
    processRecord (Json.obj kvs) =
      some (Json.obj (dictInsert kvs msgKey (Json.obj (dictInsert mkvs contentKey
        (Json.str (remove_empty_think_tags s)))))) := by
  simp [processRecord, pyIn, hm, hc]

theorem processRecord_benign {r : Json} (h : benignMiss r) :
    processRecord r = some r := by
  rcases h with h | ⟨kvs, v, rfl, hl, hin⟩
  · simp [processRecord, h]
  · have houter : pyIn msgKey (Json.obj kvs) = some true := by simp [pyIn, hl]
    simp only [processRecord, houter, hl, hin]

theorem mem_dictInsert {α : Type} : ∀ (d : List (List Char × α)) (k : List Char)
    (v : α) (e : List Char × α), e ∈ dictInsert d k v → e ∈ d ∨ e = (k, v) := by
  intro d
  induction d with
  | nil =>
    intro k v e he
    simp only [dictInsert, List.mem_singleton] at he
    exact Or.inr he
  | cons kv rest ih =>
    intro k v e he
    obtain ⟨k2, v2⟩ := kv
    by_cases hk : k2 = k
    · simp only [dictInsert, if_pos hk, List.mem_cons] at he
      rcases he with he | he
      · exact Or.inr (by rw [he, hk])
      · exact Or.inl (List.mem_cons_of_mem _ he)
    · simp only [dictInsert, if_neg hk, List.mem_cons] at he
      rcases he with he | he
      · exact Or.inl (by rw [he]; exact List.mem_cons_self _ _)
      · rcases ih k v e he with h3 | h3
        · exact Or.inl (List.mem_cons_of_mem _ h3)
        · exact Or.inr h3

theorem mem_filterReq_fold : ∀ (l acc : List (List Char × List Char))
    (e : List Char × List Char),
    e ∈ l.foldl
      (fun d kv => if lowerStr kv.1 = hostChars then d else dictInsert d kv.1 kv.2) acc →
    e ∈ acc ∨ (e ∈ l ∧ lowerStr e.1 ≠ hostChars) := by
  intro l
  induction l with
  | nil =>
    intro acc e he
    exact Or.inl (by simpa using he)
  | cons kv rest ih =>
    intro acc e he
    simp only [List.foldl_cons] at he
    by_cases hk : lowerStr kv.1 = hostChars
    · rw [if_pos hk] at he
      rcases ih _ e he with h | ⟨h1, h2⟩
      · exact Or.inl h
      · exact Or.inr ⟨List.mem_cons_of_mem _ h1, h2⟩
    · rw [if_neg hk] at he
      rcases ih _ e he with h | ⟨h1, h2⟩
      · rcases mem_dictInsert acc kv.1 kv.2 e h with h3 | h3
        · exact Or.inl h3
        · refine Or.inr ⟨?_, ?_⟩
          · rw [h3]
            simp
          · rw [h3]
            simpa using hk
      · exact Or.inr ⟨List.mem_cons_of_mem _ h1, h2⟩

theorem mem_filterRequestHeaders {hs : List (List Char × List Char)}
    {e : List Char × List Char} (he : e ∈ filterRequestHeaders hs) :
    e ∈ hs ∧ lowerStr e.1 ≠ hostChars := by
  rcases mem_filterReq_fold hs [] e he with h | h
  · cases h
  · exact h

theorem ndjson_stream_append (decode : List Char → Option Json)
    (encode : Json → List Char) (l1 l2 : List (List Char)) :
    ndjson_stream decode encode (l1 ++ l2)
      = ndjson_stream decode encode l1 ++ ndjson_stream decode encode l2 := by
  simp [ndjson_stream]

/-! ## The claims -/

/-- C1: for every POST request whose path equals `api/generate`, the router
dispatches to the dedicated generate handler, and the handler parses the
JSON body, sets or overrides the boolean `stream` field to `false`, and
forwards the mutated body.  (The handler itself is the spec-modelled
`proxy_generate`, its caller being line 160 of the source.) -/
theorem claim_C1_generate (req : InRequest) (decode : List Char → Option Json)
    (kvs : List (List Char × Json))
    (hp : req.path = generatePathChars) (hm : req.method = HMethod.POST)
    (hb : decode req.body = some (Json.obj kvs)) :
    routeRequest req.path req.method = HandlerChoice.generate ∧
    proxy_generate decode req
      = some (Json.obj (dictInsert kvs streamKey (Json.bool false))) ∧
    lookupKey (dictInsert kvs streamKey (Json.bool false)) streamKey
      = some (Json.bool false) := by
  refine ⟨?_, ?_, lookupKey_dictInsert kvs streamKey (Json.bool false)⟩
  · rw [hp, hm]
    simp [routeRequest]
  · simp [proxy_generate, hb]

theorem claim_C1_witness :
    routeRequest generatePathChars HMethod.POST = HandlerChoice.generate ∧
    proxy_generate (fun _ => some (Json.obj []))
        ⟨HMethod.POST, generatePathChars, [], [], [], []⟩
      = some (Json.obj (dictInsert [] streamKey (Json.bool false))) ∧
    lookupKey (dictInsert [] streamKey (Json.bool false)) streamKey
      = some (Json.bool false) :=
  claim_C1_generate ⟨HMethod.POST, generatePathChars, [], [], [], []⟩
    (fun _ => some (Json.obj [])) [] rfl rfl rfl

/-- C2: for a record whose `message.content` string is an alternation of
span-free stretches and whitespace-only think-tag spans (case-insensitive
tags, whitespace spanning newlines), the line transform removes exactly the
spans and keeps the rest of the string byte-identical. -/
theorem claim_C2_empty_span_removal (kvs mkvs : List (List Char × Json))
    (c0 : List Char) (parts : List (List Char × List Char))
    (hm : lookupKey kvs msgKey = some (Json.obj mkvs))
    (hc : lookupKey mkvs contentKey = some (Json.str (concatSpans c0 parts)))
    (h0 : ¬HasEmptySpan c0)
    (hp : ∀ p ∈ parts, EmptySpan p.1 ∧ ¬HasEmptySpan p.2) :
    processRecord (Json.obj kvs) =
      some (Json.obj (dictInsert kvs msgKey (Json.obj (dictInsert mkvs contentKey
        (Json.str (c0 ++ (parts.map Prod.snd).flatten)))))) := by
  rw [processRecord_obj hm hc, remove_concatSpans parts c0 h0 hp]

theorem claim_C2_witness :
    processRecord (Json.obj [(msgKey, Json.obj [(contentKey, Json.str
        (concatSpans [] [("<think>\n\n</think>".toList, "Hello".toList)]))])])
      = some (Json.obj [(msgKey, Json.obj [(contentKey,
          Json.str "Hello".toList)])]) :=
  (claim_C2_empty_span_removal [(msgKey, Json.obj [(contentKey, Json.str
      (concatSpans [] [("<think>\n\n</think>".toList, "Hello".toList)]))])]
    [(contentKey, Json.str
      (concatSpans [] [("<think>\n\n</think>".toList, "Hello".toList)]))]
    [] [("<think>\n\n</think>".toList, "Hello".toList)] rfl rfl
    (not_hasEmptySpan_of_scan (by decide))
    (by
      intro p hp
      rw [List.mem_singleton] at hp
      subst hp
      exact ⟨⟨"<think>".toList, "\n\n".toList, "</think>".toList,
          by decide, by decide, by decide, by decide⟩,
        not_hasEmptySpan_of_scan (by decide)⟩)).trans (by rfl)

/-- C3: for a record whose `message.content` contains no whitespace-only
think-tag span (every think-tag pair present has non-whitespace inside),
the line transform is the identity. -/
theorem claim_C3_identity (kvs mkvs : List (List Char × Json)) (s : List Char)
    (hm : lookupKey kvs msgKey = some (Json.obj mkvs))
    (hc : lookupKey mkvs contentKey = some (Json.str s))
    (hs : ¬HasEmptySpan s) :
    processRecord (Json.obj kvs) = some (Json.obj kvs) := by
  rw [processRecord_obj hm hc, remove_eq_self_of_no_span hs,
    dictInsert_self mkvs contentKey (Json.str s) hc,
    dictInsert_self kvs msgKey (Json.obj mkvs) hm]

theorem claim_C3_witness :
    processRecord (Json.obj [(msgKey, Json.obj [(contentKey,
        Json.str "<think>reasoning</think>Hi".toList)])])
      = some (Json.obj [(msgKey, Json.obj [(contentKey,
        Json.str "<think>reasoning</think>Hi".toList)])]) :=
  claim_C3_identity [(msgKey, Json.obj [(contentKey,
      Json.str "<think>reasoning</think>Hi".toList)])]
    [(contentKey, Json.str "<think>reasoning</think>Hi".toList)]
    "<think>reasoning</think>Hi".toList rfl rfl
    (not_hasEmptySpan_of_scan (by decide))

/-- C4 counterexample: the line transform is not idempotent.  On the record
with content `<think><think></think></think>`, one pass removes the inner
empty span, leaving `<think></think>`, and a second pass removes that too,
so transform (transform r) differs from transform r. -/
theorem claim_C4_cex :
    (processRecord (Json.obj [(msgKey, Json.obj [(contentKey,
        Json.str "<think><think></think></think>".toList)])])).bind processRecord
      ≠ processRecord (Json.obj [(msgKey, Json.obj [(contentKey,
        Json.str "<think><think></think></think>".toList)])]) := by
  intro h
  have e1 : ((processRecord (Json.obj [(msgKey, Json.obj [(contentKey,
      Json.str "<think><think></think></think>".toList)])])).bind
        processRecord).bind contentOf = some ([] : List Char) := rfl
  have e2 : (processRecord (Json.obj [(msgKey, Json.obj [(contentKey,
      Json.str "<think><think></think></think>".toList)])])).bind contentOf
        = some ("<think></think>".toList) := rfl
  have h2 : some ([] : List Char) = some ("<think></think>".toList) := by
    rw [← e1, ← e2, h]
  exact absurd h2 (by decide)

/-- C4 amended: the transform is idempotent on a record whenever one
application leaves no whitespace-only think-tag span in the content (the
counterexample shows removal of nested empty spans can create a new empty
span, which a single `re.sub` pass does not revisit). -/
theorem claim_C4_amended (kvs mkvs : List (List Char × Json)) (s : List Char)
    (hm : lookupKey kvs msgKey = some (Json.obj mkvs))
    (hc : lookupKey mkvs contentKey = some (Json.str s))
    (h : ¬HasEmptySpan (remove_empty_think_tags s)) :
    (processRecord (Json.obj kvs)).bind processRecord
      = processRecord (Json.obj kvs) := by
  rw [processRecord_obj hm hc]
  rw [Option.some_bind]
  rw [processRecord_obj
    (lookupKey_dictInsert kvs msgKey (Json.obj (dictInsert mkvs contentKey
      (Json.str (remove_empty_think_tags s)))))
    (lookupKey_dictInsert mkvs contentKey (Json.str (remove_empty_think_tags s)))]
  rw [remove_eq_self_of_no_span h, dictInsert_dictInsert, dictInsert_dictInsert]

theorem claim_C4_witness :
    (processRecord (Json.obj [(msgKey, Json.obj [(contentKey,
        Json.str "<think> </think>a".toList)])])).bind processRecord
      = processRecord (Json.obj [(msgKey, Json.obj [(contentKey,
        Json.str "<think> </think>a".toList)])]) :=
  claim_C4_amended [(msgKey, Json.obj [(contentKey,
      Json.str "<think> </think>a".toList)])]
    [(contentKey, Json.str "<think> </think>a".toList)]
    "<think> </think>a".toList rfl rfl
    (not_hasEmptySpan_of_scan (by decide))

/-- C5 counterexample: a record on which the field-path check raises (here
the record `42`, on which Python `"message" in 42` raises `TypeError`) is
not passed through unchanged: the generic `except` drops it, and the
pipeline emits nothing for its line. -/
theorem claim_C5_cex :
    processRecord (Json.num 42) = none ∧
    ndjson_stream (fun _ => some (Json.num 42)) (fun _ => []) [['4', '2']]
      = [] :=
  ⟨rfl, rfl⟩

/-- C5 amended: a record on which the membership tests run without raising
and report the field absent is returned unchanged and forwarded; records on
which the test or the access raises `TypeError` (non-container records,
non-object `message` values containing `content`, non-string content) are
dropped instead. -/
theorem claim_C5_amended (r : Json) (decode : List Char → Option Json)
    (encode : Json → List Char) (line : List Char)
    (hb : benignMiss r) (hl : line.isEmpty = false) (hd : decode line = some r) :
    processRecord r = some r ∧
    ndjson_stream decode encode [line] = [encode r ++ ['\n']] := by
  have h1 : processRecord r = some r := processRecord_benign hb
  refine ⟨h1, ?_⟩
  simp [ndjson_stream, processLineOut, hl, hd, h1]

theorem claim_C5_witness :
    processRecord (Json.obj []) = some (Json.obj []) ∧
    ndjson_stream (fun _ => some (Json.obj [])) (fun _ => "{}".toList)
        [['{', '}']]
      = ["{}".toList ++ ['\n']] :=
  claim_C5_amended (Json.obj []) (fun _ => some (Json.obj []))
    (fun _ => "{}".toList) ['{', '}'] (Or.inl rfl) rfl rfl

/-- C6: a non-empty line that fails to decode as JSON contributes no output
bytes, and the rest of the stream is processed exactly as if the line were
absent: it is neither forwarded raw nor does it abort the stream. -/
theorem claim_C6_malformed (decode : List Char → Option Json)
    (encode : Json → List Char) (pre post : List (List Char)) (line : List Char)
    (h1 : line ≠ []) (h2 : decode line = none) :
    ndjson_stream decode encode (pre ++ line :: post)
      = ndjson_stream decode encode (pre ++ post) := by
  obtain ⟨c, t, rfl⟩ := List.exists_cons_of_ne_nil h1
  simp [ndjson_stream, processLineOut, h2]

theorem claim_C6_witness :
    ndjson_stream (fun _ => none) (fun _ => []) ([] ++ ['z'] :: [])
      = ndjson_stream (fun _ => none) (fun _ => []) ([] ++ []) :=
  claim_C6_malformed (fun _ => none) (fun _ => []) [] [] ['z'] (by decide) rfl

/-- C7: empty lines are skipped silently, and an input of two valid JSON
lines separated by an empty line yields exactly the two transformed lines
with no blank line between them. -/
theorem claim_C7_empty_lines (decode : List Char → Option Json)
    (encode : Json → List Char) (pre post : List (List Char))
    (l1 l2 : List Char) (j1 j2 j1' j2' : Json)
    (h1 : l1 ≠ []) (h2 : l2 ≠ [])
    (hd1 : decode l1 = some j1) (hd2 : decode l2 = some j2)
    (hp1 : processRecord j1 = some j1') (hp2 : processRecord j2 = some j2') :
    ndjson_stream decode encode (pre ++ [] :: post)
        = ndjson_stream decode encode (pre ++ post) ∧
    ndjson_stream decode encode [l1, [], l2]
        = [encode j1' ++ ['\n'], encode j2' ++ ['\n']] := by
  constructor
  · simp [ndjson_stream, processLineOut]
  · obtain ⟨c1x, t1, rfl⟩ := List.exists_cons_of_ne_nil h1
    obtain ⟨c2x, t2, rfl⟩ := List.exists_cons_of_ne_nil h2
    simp [ndjson_stream, processLineOut, hd1, hd2, hp1, hp2]

theorem claim_C7_witness :
    ndjson_stream (fun _ => some (Json.obj [])) (fun _ => ['j']) ([] ++ [] :: [])
        = ndjson_stream (fun _ => some (Json.obj [])) (fun _ => ['j']) ([] ++ []) ∧
    ndjson_stream (fun _ => some (Json.obj [])) (fun _ => ['j']) [['a'], [], ['b']]
        = [['j'] ++ ['\n'], ['j'] ++ ['\n']] :=
  claim_C7_empty_lines (fun _ => some (Json.obj [])) (fun _ => ['j']) [] []
    ['a'] ['b'] (Json.obj []) (Json.obj []) (Json.obj []) (Json.obj [])
    (by decide) (by decide) rfl rfl rfl rfl

/-- C8 counterexample: the request-side header filter is a Python dict
comprehension, so an input with a repeated non-Host key is deduplicated
(first position, last value), contradicting "no other header is altered,
reordered, or deduplicated". -/
theorem claim_C8_cex :
    filterRequestHeaders [("X-A".toList, ['1']), ("X-A".toList, ['2'])]
      ≠ [("X-A".toList, ['1']), ("X-A".toList, ['2'])] ∧
    filterRequestHeaders [("X-A".toList, ['1']), ("X-A".toList, ['2'])]
      = [("X-A".toList, ['2'])] := by
  exact ⟨by decide, by decide⟩

/-- C8 amended: the request-side filter never emits a Host entry and every
emitted pair occurs in the input, but repeated request header keys are
collapsed to a single entry; the response-side filter is exactly a filter:
it removes the excluded entries and leaves every other header untouched, in
order, duplicates included. -/
theorem claim_C8_amended (hs : List (List Char × List Char)) :
    (filterRequestHeaders hs).all
        (fun e => decide (lowerStr e.1 ≠ hostChars) && decide (e ∈ hs)) = true ∧
    filterResponseHeaders hs
        = hs.filter (fun kv => !(excludedHeaders.contains (lowerStr kv.1))) ∧
    (filterResponseHeaders hs).all
        (fun e => !(excludedHeaders.contains (lowerStr e.1))) = true ∧
    List.Sublist (filterResponseHeaders hs) hs := by
  refine ⟨?_, rfl, ?_, List.filter_sublist hs⟩
  · rw [List.all_eq_true]
    intro e he
    have h := mem_filterRequestHeaders he
    simp [h.1, h.2]
  · rw [List.all_eq_true]
    intro e he
    rw [filterResponseHeaders, List.mem_filter] at he
    exact he.2

/-- C9: the generic forwarder makes exactly one outbound call, to the
backend base URL joined with the inbound path, preserving method, body and
query, with redirect-following disabled; the backend status and body are
relayed unchanged and the response headers pass through the response-side
filter only. -/
theorem claim_C9_forwarder (base : List Char)
    (backend : OutboundRequest → BackendResponse) (req : InRequest) :
    (forwardOther base backend req).2 = [buildForwardRequest base req] ∧
    (buildForwardRequest base req).url = base ++ '/' :: req.path ∧
    (buildForwardRequest base req).method = req.method ∧
    (buildForwardRequest base req).body = req.body ∧
    (buildForwardRequest base req).queryParams = req.queryParams ∧
    (buildForwardRequest base req).allowRedirects = false ∧
    (forwardOther base backend req).1.status
      = (backend (buildForwardRequest base req)).status ∧
    (forwardOther base backend req).1.body
      = (backend (buildForwardRequest base req)).body ∧
    (forwardOther base backend req).1.headers
      = filterResponseHeaders (backend (buildForwardRequest base req)).headers :=
  ⟨rfl, rfl, rfl, rfl, rfl, rfl, rfl, rfl, rfl⟩

/-- C10: `POST /api/chat` routes to the streaming-chat handler, whose
response to the client always has status 200 and the fixed NDJSON
content-type header, for every backend: no backend status or header is
copied. -/
theorem claim_C10_chat (decode : List Char → Option Json)
    (encode : Json → List Char) (backend : OutboundRequest → StreamBackendResponse)
    (base : List Char) (req : InRequest) :
    routeRequest chatPathChars HMethod.POST = HandlerChoice.chat ∧
    (proxy_chat decode encode backend base req).1.status = 200 ∧
    (proxy_chat decode encode backend base req).1.headers
      = [(contentTypeChars, ndjsonMime)] :=
  ⟨by decide, rfl, rfl⟩

end Haollama
